import Mathlib

/- Shallow embedding of the campaign-orchestration core of the
   othmane-chaikhi/mail-automation repository: the template renderer
   (smart_format_template), the recipient resolver (validate_email,
   parse_text_form_recipients, load_recipients_from_csv), the dedup pass
   and paced send loop of src/app.py main, the gated run loop of
   src/send_cv.py, and the progress store (save_progress/load_progress).
   Strings are modelled as List Char; regex passes are modelled by
   executable scanners that follow the Python re semantics (leftmost
   match, greedy with backtracking) on the character classes involved.
   Randomness (random.choice, random.randint) is modelled by an explicit
   draw parameter; SMTP transmission outcomes by an explicit Bool. -/

/-- Python whitespace test, as used by str.strip (ASCII fragment). -/
def isPySpace (c : Char) : Bool :=
  c == ' ' || c == '\t' || c == '\n' || c == '\r' || c == '\x0b' || c == '\x0c'

/-- Python str.strip: remove whitespace at both ends. -/
def pyStrip (s : List Char) : List Char :=
  ((s.dropWhile isPySpace).reverse.dropWhile isPySpace).reverse

/-- Python str.split(sep) for a one-character separator: split on every
occurrence, keeping empty segments (the result is always non-empty). -/
def splitOnChar (sep : Char) : List Char → List (List Char)
  | [] => [[]]
  | c :: rest =>
    let r := splitOnChar sep rest
    if c == sep then [] :: r
    else
      match r with
      | [] => [[c]]
      | h :: t => (c :: h) :: t

/-- Python substring test (pat in s). -/
def containsSub (pat : List Char) : List Char → Bool
  | [] => pat.isEmpty
  | c :: rest => pat.isPrefixOf (c :: rest) || containsSub pat rest

/-- Decimal digit character for d in 0..9 (as produced by Python str(int)). -/
def digitChar (d : Nat) : Char :=
  if d = 0 then '0' else if d = 1 then '1' else if d = 2 then '2'
  else if d = 3 then '3' else if d = 4 then '4' else if d = 5 then '5'
  else if d = 6 then '6' else if d = 7 then '7' else if d = 8 then '8' else '9'

/-- Numeric value of a decimal digit character. -/
def digitVal (c : Char) : Nat := c.toNat - 48

/-- Reversed decimal digits of n, with explicit fuel (fuel >= n suffices). -/
def natToCharsRev : Nat → Nat → List Char
  | 0, _ => []
  | f + 1, n => if n = 0 then [] else digitChar (n % 10) :: natToCharsRev f (n / 10)

/-- Decimal rendering of a natural number, as Python str(int) does. -/
def natToChars (n : Nat) : List Char :=
  if n = 0 then ['0'] else (natToCharsRev n n).reverse

/-- Decimal parsing, as Python int() does on a digit string. -/
def charsToNat (l : List Char) : Nat :=
  l.foldl (fun acc c => acc * 10 + digitVal c) 0

/-- Recipient record as handled by src/app.py (string fields). -/
structure Recipient where
  email : String
  name : String
  company : String
deriving DecidableEq

/-- Recipient record at the character level, for the resolver functions. -/
structure RecipientC where
  email : List Char
  name : List Char
  company : List Char
deriving DecidableEq

/-- Lower-cased email, the deduplication key of src/app.py main
(recipient.get('email', '').lower(), lines 1299-1306); str.lower is
modelled characterwise (ASCII case folding). -/
def dedupKey (r : Recipient) : String := ⟨r.email.data.map Char.toLower⟩

/-- The dedup loop of src/app.py main (lines 1299-1306): walk the combined
list keeping a set of seen lower-cased emails; append a record only when
its key is unseen. -/
def removeDuplicates : List Recipient → List String → List Recipient
  | [], _ => []
  | r :: rest, seen =>
    if dedupKey r ∈ seen then removeDuplicates rest seen
    else r :: removeDuplicates rest (dedupKey r :: seen)

/-- unique_recipients as computed by src/app.py main before sending. -/
def unique_recipients (l : List Recipient) : List Recipient :=
  removeDuplicates l []

/-- Mutable counters of the EmailAutomation object
(self.sent_count / self.failed_count, initialised to 0 in both
src/app.py and src/send_cv.py). -/
structure AutomationState where
  sent_count : Nat
  failed_count : Nat
deriving DecidableEq

/-- EmailAutomation.send_email (src/app.py lines 319-368, src/send_cv.py
lines 190-239): the whole body is wrapped in try/except; success
increments sent_count and returns True, any failure increments
failed_count and returns False. The transmission outcome
(server.send_message raising or not) is the explicit input. -/
def send_email (transmitOk : Bool) (s : AutomationState) : AutomationState × Bool :=
  if transmitOk then ({ s with sent_count := s.sent_count + 1 }, true)
  else ({ s with failed_count := s.failed_count + 1 }, false)

/-- Folding send_email over a sequence of transmission outcomes starting
from a freshly constructed EmailAutomation. -/
def runCalls (outcomes : List Bool) : AutomationState :=
  outcomes.foldl (fun s ok => (send_email ok s).1) ⟨0, 0⟩

/-- Observable actions of the send loop. -/
inductive LoopEvent
  | send (i : Nat) (ok : Bool)
  | sleep (d : Nat)
deriving DecidableEq

/-- The send loop of src/app.py main (lines 1390-1411) and the iteration
of src/send_cv.py run (lines 307-324): process each recipient in order
with send_email, and sleep for the drawn random delay after recipient i
exactly when i < total - 1. delays i models random.randint at step i. -/
def sendLoopAux (delays : Nat → Nat) (total : Nat) :
    List Bool → Nat → AutomationState → AutomationState × List LoopEvent
  | [], _, s => (s, [])
  | ok :: rest, i, s =>
    let step := send_email ok s
    let tail := sendLoopAux delays total rest (i + 1) step.1
    (tail.1,
      (LoopEvent.send i step.2 ::
        (if i < total - 1 then [LoopEvent.sleep (delays i)] else [])) ++ tail.2)

/-- The campaign send phase of src/app.py main over the deduplicated
recipient list, starting at index 0 with fresh counters. -/
def sendLoop (outcomes : List Bool) (delays : Nat → Nat) :
    AutomationState × List LoopEvent :=
  sendLoopAux delays outcomes.length outcomes 0 ⟨0, 0⟩

/-- The i-indices of the send events of a trace. -/
def sentEventIndices (events : List LoopEvent) : List Nat :=
  events.filterMap (fun e =>
    match e with
    | LoopEvent.send i _ => some i
    | _ => none)

/-- The trace the spec describes: for every recipient index a send event,
followed by one pacing sleep exactly when the index is not the last. -/
def pacedTrace (outcomes : List Bool) (delays : Nat → Nat) : List LoopEvent :=
  ((List.range outcomes.length).map (fun i =>
    LoopEvent.send i (outcomes.getD i false) ::
      (if i < outcomes.length - 1 then [LoopEvent.sleep (delays i)] else []))).flatten

/-- Terminal outcomes of EmailAutomation.run (src/send_cv.py 276-342). -/
inductive RunOutcome
  | connectFailed
  | noRecipients
  | refusedCap
  | ran
deriving DecidableEq

/-- EmailAutomation.run of src/send_cv.py (lines 276-342): connect, load
recipients, then the daily-limit gate (lines 298-303): when the
recipient count exceeds max_emails_per_day the operator is asked to
confirm and a non-yes answer returns before any send; otherwise the
paced loop runs from the resume index. Operator answers and SMTP
outcomes are explicit booleans. -/
def run_cv (connectOk : Bool) (recipients : List Recipient) (maxEmails : Nat)
    (confirmOverLimit : Bool) (outcomes : List Bool) (delays : Nat → Nat)
    (startIndex : Nat) : RunOutcome × AutomationState × List LoopEvent :=
  if connectOk = false then (RunOutcome.connectFailed, ⟨0, 0⟩, [])
  else if recipients = [] then (RunOutcome.noRecipients, ⟨0, 0⟩, [])
  else if maxEmails < recipients.length ∧ confirmOverLimit = false then
    (RunOutcome.refusedCap, ⟨0, 0⟩, [])
  else
    let r := sendLoopAux delays recipients.length
      (outcomes.take (recipients.drop startIndex).length) startIndex ⟨0, 0⟩
    (RunOutcome.ran, r)

/-- EmailAutomation.save_progress (src/send_cv.py lines 257-264): open the
progress file in mode w (overwriting whatever was there) and write the
four key=value lines. The previous file contents are the last argument
and are discarded. -/
def save_progress (cursor sent failed : Nat) (timestamp : List Char)
    (_previous : Option (List (List Char))) : Option (List (List Char)) :=
  some [("last_sent_index=".data ++ natToChars cursor),
        ("sent_count=".data ++ natToChars sent),
        ("failed_count=".data ++ natToChars failed),
        ("timestamp=".data ++ timestamp)]

/-- EmailAutomation.load_progress (src/send_cv.py lines 266-274): if the
file exists, return int(line.split('=')[1]) for the first line starting
with last_sent_index=, else 0. -/
def load_progress (file : Option (List (List Char))) : Nat :=
  match file with
  | none => 0
  | some lines =>
    match lines.find? (fun l => "last_sent_index=".data.isPrefixOf l) with
    | some line => charsToNat ((splitOnChar '=' line).getD 1 [])
    | none => 0

/-- The campaign state observable after a resume in src/send_cv.py run:
the cursor comes from load_progress, while sent_count and failed_count
are the fresh zeros of EmailAutomation.init (load_progress never reads
the persisted counter lines). -/
def resume_state (file : Option (List (List Char))) : Nat × Nat × Nat :=
  (load_progress file, 0, 0)

/-- EmailAutomation.get_random_greeting of src/app.py (lines 91-97): one
draw from the configured greeting variants (random.choice modelled by
the draw index); with a name the result is greeting, space, name,
comma; without a name just greeting and comma. -/
def get_random_greeting (greetings : List String) (draw : Nat) (name : String) : String :=
  let greeting := greetings.getD draw ""
  if name = "" then greeting ++ "," else greeting ++ " " ++ name ++ ","

/-- validate_email of src/app.py (lines 370-372): at least one at-sign,
and a dot somewhere in email.split(at)[1], the segment between the first
and second at-sign (or the whole remainder when there is only one). -/
def validate_email (email : List Char) : Bool :=
  email.contains '@' && ((splitOnChar '@' email).getD 1 []).contains '.'

/-- Python str.replace(old, new) with explicit fuel (one unit per scanned
character suffices): replace every non-overlapping occurrence, scanning
left to right. Never called with an empty pattern here. -/
def replaceAllF : Nat → List Char → List Char → List Char → List Char
  | 0, _, _, s => s
  | _ + 1, _, _, [] => []
  | f + 1, pat, repl, c :: rest =>
    if pat ≠ [] ∧ pat.isPrefixOf (c :: rest) then
      repl ++ replaceAllF f pat repl ((c :: rest).drop pat.length)
    else c :: replaceAllF f pat repl rest

/-- Python str.replace(old, new). -/
def replaceAll (pat repl s : List Char) : List Char :=
  replaceAllF s.length pat repl s

/-- The cleanup re.sub removing every comma and semicolon from a parsed
name (src/app.py line 611); deleting each maximal run of commas and
semicolons is the same as deleting each such character. -/
def removeCommaSemi (s : List Char) : List Char :=
  s.filter (fun c => !(c == ',' || c == ';'))

/-- Leftmost match of the angle-bracket pattern of src/app.py line 599
(an opening angle, one or more non-closing characters, a closing angle),
returning the bracketed group. -/
def angleSearch : List Char → Option (List Char)
  | [] => none
  | c :: rest =>
    if c == '<' then
      let inner := rest.takeWhile (fun ch => ch != '>')
      if inner.isEmpty then angleSearch rest
      else
        match rest.dropWhile (fun ch => ch != '>') with
        | '>' :: _ => some inner
        | _ => angleSearch rest
    else angleSearch rest

/-- Word character of the regex word-boundary assertion (ASCII fragment
of Python re's word class). -/
def wordCharB (c : Char) : Bool := c.isAlphanum || c == '_'

/-- Word boundary between two adjacent positions (out of range counts as
a non-word character). -/
def boundaryB (prev cur : Option Char) : Bool :=
  (match prev with | some c => wordCharB c | none => false) !=
  (match cur with | some c => wordCharB c | none => false)

/-- Character class of the local part of the email regex on line 605. -/
def isLocalChar (c : Char) : Bool :=
  c.isAlphanum || c == '.' || c == '_' || c == '%' || c == '+' || c == '-'

/-- Character class of the domain part of the email regex. -/
def isDomainChar (c : Char) : Bool := c.isAlphanum || c == '.' || c == '-'

/-- Character class of the final segment of the email regex (the class is
written with a literal pipe between the two letter ranges, so the pipe
character itself is included). -/
def isTldChar (c : Char) : Bool := c.isAlpha || c == '|'

/-- Candidate lengths hi, hi-1, ..., lo: the order a greedy quantifier
with backtracking tries its extents. -/
def descRange (hi lo : Nat) : List Nat :=
  (List.range (hi + 1 - lo)).map (fun k => hi - k)

/-- Match of the email regex of src/app.py line 605 anchored at the
current position, given the preceding character for the word-boundary
assertions: word boundary, one or more local characters, an at-sign, one
or more domain characters, a literal dot, two or more trailing letters,
word boundary. Greedy pieces try their longest extent first, as the re
engine backtracks. Returns the matched substring. -/
def emailMatchAt (prev : Option Char) (s : List Char) : Option (List Char) :=
  if boundaryB prev s.head? = false then none
  else
    let localRun := s.takeWhile isLocalChar
    (descRange localRun.length 1).findSome? (fun l =>
      let rest1 := s.drop l
      match rest1.head? with
      | some '@' =>
        let rest2 := rest1.drop 1
        let domRun := rest2.takeWhile isDomainChar
        (descRange domRun.length 1).findSome? (fun d =>
          let rest3 := rest2.drop d
          match rest3.head? with
          | some '.' =>
            let rest4 := rest3.drop 1
            let tldRun := rest4.takeWhile isTldChar
            (descRange tldRun.length 2).findSome? (fun t =>
              if boundaryB (rest4.drop (t - 1)).head? (rest4.drop t).head? then
                some (s.take l ++ '@' :: (rest2.take d ++ '.' :: rest4.take t))
              else none)
          | _ => none)
      | _ => none)

/-- re.search of the email pattern: try each start position from the
left, carrying the previous character for the boundary assertion. -/
def emailSearchAux : Option Char → List Char → Option (List Char)
  | _, [] => none
  | prev, c :: rest =>
    match emailMatchAt prev (c :: rest) with
    | some m => some m
    | none => emailSearchAux (some c) rest

/-- Leftmost match of the bare-email regex in a line. -/
def emailSearch (line : List Char) : Option (List Char) :=
  emailSearchAux none line

/-- parse_text_form_recipients of src/app.py (lines 578-620): split the
stripped text on newlines; for each non-blank stripped line, either the
angle-bracket form (bracketed email, remainder as name) or a bare email
found by regex search (matched substring as email, line with it removed
and commas and semicolons deleted as name); keep the record only when
the candidate validates. The company field is always empty. -/
def parse_text_form_recipients (text : List Char) : List RecipientC :=
  (splitOnChar '\n' (pyStrip text)).filterMap (fun rawLine =>
    let line := pyStrip rawLine
    if line.isEmpty then none
    else
      let ep :=
        if line.contains '<' && line.contains '>' then
          match angleSearch line with
          | some inner =>
            let email := pyStrip inner
            (email, pyStrip (replaceAll ('<' :: (email ++ ['>'])) [] line))
          | none => ([], [])
        else
          match emailSearch line with
          | some m =>
            (m, pyStrip (removeCommaSemi (pyStrip (replaceAll m [] line))))
          | none => ([], [])
      if ep.1 ≠ [] ∧ validate_email ep.1 then some ⟨ep.1, ep.2, []⟩ else none)

/-- Python str.splitlines, modelled for LF-separated content: like
splitting on the newline character, but a trailing newline does not
produce a final empty segment. -/
def pySplitlines (s : List Char) : List (List Char) :=
  let parts := splitOnChar '\n' s
  match parts.getLast? with
  | some [] => parts.dropLast
  | _ => parts

/-- Rows of the uploaded csv content: one row per line, fields split on
commas (no input considered here uses the quoting features of the csv
module); an empty line gives the empty row, as csv.reader does. -/
def csvRows (content : List Char) : List (List (List Char)) :=
  (pySplitlines content).map (fun l => if l.isEmpty then [] else splitOnChar ',' l)

/-- Column lookup of a csv.DictReader row: the value of the column named
key, or None when the row is shorter than the header (restval); header
names are taken distinct, as the row dict would otherwise keep only the
last duplicate. -/
def lookupField (header row : List (List Char)) (key : List Char) : Option (List Char) :=
  match header.findIdx? (fun h => h == key) with
  | some i => if i < row.length then some (row.getD i []) else none
  | none => none

/-- Python or-chain on optional strings: first truthy operand (None and
the empty string are falsy). -/
def pyOrOpt (a b : Option (List Char)) : Option (List Char) :=
  match a with
  | some s => if s.isEmpty then b else some s
  | none => b

/-- One row of the headered branch of load_recipients_from_csv
(src/app.py lines 635-649): the named email, name and company columns
with both capitalisations; when no email value is present, the first row
value containing an at-sign is adopted; the record is kept only when the
candidate is non-empty and validates. -/
def rowRecordHeader (header row : List (List Char)) : Option RecipientC :=
  let email0 := pyStrip ((pyOrOpt (pyOrOpt (lookupField header row "email".data)
    (lookupField header row "Email".data)) (some [])).getD [])
  let name := pyStrip ((pyOrOpt (pyOrOpt (lookupField header row "name".data)
    (lookupField header row "Name".data)) (some [])).getD [])
  let company := pyStrip ((pyOrOpt (pyOrOpt (lookupField header row "company".data)
    (lookupField header row "Company".data)) (some [])).getD [])
  let vals := (List.range header.length).map (fun i => row.getD i [])
  let email :=
    if email0.isEmpty then
      match vals.find? (fun v => !v.isEmpty && v.contains '@') with
      | some v => pyStrip v
      | none => email0
    else email0
  if email ≠ [] ∧ validate_email email then some ⟨email, name, company⟩ else none

/-- One row of the headerless branch of load_recipients_from_csv
(src/app.py lines 652-668): all columns stripped; column 0 is the email
candidate (empty when absent or blank), with a fallback to the first
column containing an at-sign; column 1 the name, column 2 the company;
kept only when the candidate is non-empty and validates. -/
def rowRecordNoHeader (row0 : List (List Char)) : Option RecipientC :=
  if row0.isEmpty then none
  else
    let row := row0.map pyStrip
    let e0 := if (row.getD 0 []).isEmpty then [] else row.getD 0 []
    let name := row.getD 1 []
    let company := row.getD 2 []
    let email :=
      if e0.contains '@' then e0
      else
        match row.find? (fun col => col.contains '@') with
        | some c => c
        | none => e0
    if email ≠ [] ∧ validate_email email then some ⟨email, name, company⟩ else none

/-- load_recipients_from_csv of src/app.py (lines 622-673): a header is
detected when the token email occurs in the lower-cased first line of
the 2048-character sample; with a header, DictReader semantics over the
remaining rows, otherwise positional columns. An empty upload makes the
header check raise and the except clause returns the empty list. -/
def load_recipients_from_csv (content : List Char) : List RecipientC :=
  match pySplitlines (content.take 2048) with
  | [] => []
  | firstLine :: _ =>
    if containsSub "email".data (firstLine.map Char.toLower) then
      match csvRows content with
      | [] => []
      | header :: dataRows => dataRows.filterMap (rowRecordHeader header)
    else
      (csvRows content).filterMap rowRecordNoHeader

/-- The first pass of smart_format_template (src/app.py line 432):
re.sub of a word run, optional whitespace, a colon and optional
whitespace, replaced by the run and the colon. A match needs a maximal
word run followed, possibly after whitespace, by a colon; the
whitespace around the colon is dropped and scanning resumes after the
consumed trailing whitespace; otherwise scanning moves past the run
and whitespace (no later start inside them can match). Fuel of one per
consumed character suffices. -/
def colonFixF : Nat → List Char → List Char
  | 0, s => s
  | f + 1, s =>
    match s with
    | [] => []
    | c :: rest =>
      if wordCharB c then
        let w := (c :: rest).takeWhile wordCharB
        let r1 := (c :: rest).dropWhile wordCharB
        let sp := r1.takeWhile isPySpace
        let r2 := r1.dropWhile isPySpace
        match r2 with
        | ':' :: r3 => w ++ ':' :: colonFixF f (r3.dropWhile isPySpace)
        | _ => w ++ sp ++ colonFixF f r2
      else c :: colonFixF f rest

/-- Split at the first occurrence of pat: the part strictly before and
the part strictly after (the non-greedy close of the style pattern). -/
def splitOnFirst (pat : List Char) : List Char → Option (List Char × List Char)
  | [] => none
  | c :: rest =>
    if pat.isPrefixOf (c :: rest) then some ([], (c :: rest).drop pat.length)
    else
      match splitOnFirst pat rest with
      | some (pre, post) => some (c :: pre, post)
      | none => none

/-- The numbered sentinel replacing style block k. -/
def styleMarker (k : Nat) : List Char :=
  "__STYLE_BLOCK_".data ++ natToChars k ++ "__".data

/-- The numbered sentinel replacing inline style attribute k. -/
def inlineMarker (k : Nat) : List Char :=
  "__INLINE_STYLE_".data ++ natToChars k ++ "__".data

/-- The style-block protection pass of smart_format_template (src/app.py
lines 443-449): scan left to right; at an opening style tag followed
somewhere by a closing tag, the shortest such span is appended verbatim
to the block list and replaced by its numbered marker, and scanning
resumes after the span; otherwise move one character on. -/
def extractStyleF : Nat → List Char → Nat → List Char × List (List Char)
  | 0, s, _ => (s, [])
  | f + 1, s, k =>
    match s with
    | [] => ([], [])
    | c :: rest =>
      if "<style>".data.isPrefixOf (c :: rest) then
        match splitOnFirst "</style>".data ((c :: rest).drop 7) with
        | some (mid, after) =>
          let block := "<style>".data ++ mid ++ "</style>".data
          let res := extractStyleF f after (k + 1)
          (styleMarker k ++ res.1, block :: res.2)
        | none =>
          let res := extractStyleF f rest k
          (c :: res.1, res.2)
      else
        let res := extractStyleF f rest k
        (c :: res.1, res.2)

/-- The inline-style protection pass (src/app.py lines 452-457): the
pattern style= followed by a double-quoted run of non-quote characters;
each occurrence is stored verbatim and replaced by its marker. -/
def extractInlineF : Nat → List Char → Nat → List Char × List (List Char)
  | 0, s, _ => (s, [])
  | f + 1, s, k =>
    match s with
    | [] => ([], [])
    | c :: rest =>
      if "style=\"".data.isPrefixOf (c :: rest) then
        let afterOpen := (c :: rest).drop 7
        match afterOpen.dropWhile (fun ch => ch != '"') with
        | '"' :: after =>
          let attr := "style=\"".data ++ afterOpen.takeWhile (fun ch => ch != '"') ++ ['"']
          let res := extractInlineF f after (k + 1)
          (inlineMarker k ++ res.1, attr :: res.2)
        | _ =>
          let res := extractInlineF f rest k
          (c :: res.1, res.2)
      else
        let res := extractInlineF f rest k
        (c :: res.1, res.2)

/-- The variable scan of smart_format_template (src/app.py line 460):
re.findall of an opening brace, one or more non-closing-brace
characters, and a closing brace, left to right without overlap. -/
def findVarsF : Nat → List Char → List (List Char)
  | 0, _ => []
  | f + 1, s =>
    match s with
    | [] => []
    | c :: rest =>
      if c == '\x7b' then
        let v := rest.takeWhile (fun ch => ch != '\x7d')
        if v.isEmpty then findVarsF f rest
        else
          match rest.dropWhile (fun ch => ch != '\x7d') with
          | _ :: after => v :: findVarsF f after
          | [] => findVarsF f rest
      else findVarsF f rest

/-- The substitution loop of smart_format_template (src/app.py lines
462-465): for each found variable name, when it is a key of kwargs,
replace every occurrence of the braced token by the value. -/
def substVars (kwargs : List (List Char × List Char)) (vars : List (List Char))
    (s : List Char) : List Char :=
  vars.foldl (fun acc v =>
    match kwargs.find? (fun kv => kv.1 == v) with
    | some kv => replaceAll ('\x7b' :: (v ++ ['\x7d'])) kv.2 acc
    | none => acc) s

/-- smart_format_template of src/app.py (lines 426-479): the colon-fix
pass over the whole template, protection of style blocks then inline
style attributes behind numbered sentinels, substitution of every
recognized braced variable, then restoration of the blocks and of the
inline attributes in extraction order. -/
def smart_format_template (kwargs : List (List Char × List Char))
    (template : List Char) : List Char :=
  let t1 := colonFixF template.length template
  let e1 := extractStyleF t1.length t1 0
  let e2 := extractInlineF e1.1.length e1.1 0
  let vars := findVarsF e2.1.length e2.1
  let substituted := substVars kwargs vars e2.1
  let restoredBlocks := (e1.2.enum).foldl
    (fun acc p => replaceAll (styleMarker p.1) p.2 acc) substituted
  (e2.2.enum).foldl (fun acc p => replaceAll (inlineMarker p.1) p.2 acc) restoredBlocks

/-- The verbatim style-block regions of a text, as the protection pass of
the renderer itself extracts them. -/
def styleRegions (t : List Char) : List (List Char) :=
  (extractStyleF t.length t 0).2

/-- Concrete recipient list with case-variant duplicate emails. -/
def demoRecipients : List Recipient :=
  [⟨"Info@Acme.com", "A", "Acme"⟩, ⟨"info@acme.com", "B", "Acme"⟩,
   ⟨"jobs@beta.org", "C", "Beta"⟩]

/-- Concrete recipient for the safety-gate scenario. -/
def demoRecipient : Recipient := ⟨"info@acme.com", "", ""⟩

-- ===================== THEOREMS =====================

theorem pyStrip_nil : pyStrip [] = [] := rfl

/-- send_email on a failing transmission: failed_count goes up by one,
sent_count untouched, and the call returns False. -/
theorem send_email_false (s : AutomationState) :
    send_email false s = ({ s with failed_count := s.failed_count + 1 }, false) := rfl

theorem send_email_true (s : AutomationState) :
    send_email true s = ({ s with sent_count := s.sent_count + 1 }, true) := rfl

theorem runCalls_aux (outcomes : List Bool) :
    ∀ s : AutomationState,
      (outcomes.foldl (fun s ok => (send_email ok s).1) s).sent_count +
        (outcomes.foldl (fun s ok => (send_email ok s).1) s).failed_count =
      s.sent_count + s.failed_count + outcomes.length := by
  induction outcomes with
  | nil => intro s; simp
  | cons ok rest ih =>
    intro s
    cases ok
    · have h := ih { s with failed_count := s.failed_count + 1 }
      simp [send_email] at h ⊢
      omega
    · have h := ih { s with sent_count := s.sent_count + 1 }
      simp [send_email] at h ⊢
      omega

/-- C10: send_email increments exactly one of the two counters by one,
returns True exactly when sent_count was incremented, and consequently
sent_count + failed_count equals the number of send attempts made from a
fresh EmailAutomation. -/
theorem claim_C10 :
    (∀ s, send_email true s = ({ s with sent_count := s.sent_count + 1 }, true)) ∧
    (∀ s, send_email false s = ({ s with failed_count := s.failed_count + 1 }, false)) ∧
    (∀ ok s, (send_email ok s).2 = true ↔
      (send_email ok s).1.sent_count = s.sent_count + 1) ∧
    (∀ outcomes : List Bool,
      (runCalls outcomes).sent_count + (runCalls outcomes).failed_count =
        outcomes.length) := by
  refine ⟨fun s => rfl, fun s => rfl, ?_, ?_⟩
  · intro ok s
    cases ok <;> simp [send_email]
  · intro outcomes
    have h := runCalls_aux outcomes ⟨0, 0⟩
    simpa [runCalls] using h

theorem removeDuplicates_sublist :
    ∀ (l : List Recipient) (seen : List String),
      List.Sublist (removeDuplicates l seen) l := by
  intro l
  induction l with
  | nil => intro seen; simp [removeDuplicates]
  | cons r rest ih =>
    intro seen
    simp only [removeDuplicates]
    split
    · exact (ih seen).cons r
    · exact (ih _).cons₂ r

theorem removeDuplicates_key_notin :
    ∀ (l : List Recipient) (seen : List String) (r : Recipient),
      r ∈ removeDuplicates l seen → dedupKey r ∉ seen := by
  intro l
  induction l with
  | nil => intro seen r hr; simp [removeDuplicates] at hr
  | cons x rest ih =>
    intro seen r hr
    simp only [removeDuplicates] at hr
    by_cases h : dedupKey x ∈ seen
    · rw [if_pos h] at hr
      exact ih seen r hr
    · rw [if_neg h] at hr
      rcases List.mem_cons.mp hr with rfl | hr2
      · exact h
      · intro hs
        exact ih _ r hr2 (List.mem_cons_of_mem _ hs)

theorem removeDuplicates_keys_nodup :
    ∀ (l : List Recipient) (seen : List String),
      ((removeDuplicates l seen).map dedupKey).Nodup := by
  intro l
  induction l with
  | nil => intro seen; simp [removeDuplicates]
  | cons x rest ih =>
    intro seen
    simp only [removeDuplicates]
    split
    · exact ih seen
    · simp only [List.map_cons, List.nodup_cons]
      refine ⟨?_, ih _⟩
      intro hmem
      rcases List.mem_map.mp hmem with ⟨r, hr, hkey⟩
      have hni := removeDuplicates_key_notin rest _ r hr
      exact hni (hkey ▸ List.mem_cons_self _ _)

theorem removeDuplicates_filter_length :
    ∀ (l : List Recipient) (seen : List String) (e : String), e ∉ seen →
      e ∈ l.map dedupKey →
      ((removeDuplicates l seen).filter (fun r => dedupKey r == e)).length = 1 := by
  intro l
  induction l with
  | nil => intro seen e _ h; simp at h
  | cons x rest ih =>
    intro seen e hseen hmem
    simp only [removeDuplicates]
    by_cases hx : dedupKey x ∈ seen
    · rw [if_pos hx]
      have hne : dedupKey x ≠ e := fun h => hseen (h ▸ hx)
      have hmem2 : e ∈ rest.map dedupKey := by
        rcases List.mem_map.mp hmem with ⟨a, ha, hae⟩
        rcases List.mem_cons.mp ha with rfl | ha2
        · exact absurd hae hne
        · exact List.mem_map.mpr ⟨a, ha2, hae⟩
      exact ih seen e hseen hmem2
    · rw [if_neg hx]
      by_cases hxe : dedupKey x = e
      · simp only [List.filter_cons]
        rw [if_pos (by simp [hxe])]
        have hnil :
            (removeDuplicates rest (dedupKey x :: seen)).filter
              (fun r => dedupKey r == e) = [] := by
          apply List.filter_eq_nil_iff.mpr
          intro r hr hbeq
          have h2 := removeDuplicates_key_notin rest _ r hr
          have h3 : dedupKey r = dedupKey x := by
            rw [show dedupKey r = e from by simpa using hbeq, hxe]
          exact h2 (h3 ▸ List.mem_cons_self _ _)
        rw [hnil]
        rfl
      · simp only [List.filter_cons]
        rw [if_neg (by simp [hxe])]
        have hmem2 : e ∈ rest.map dedupKey := by
          rcases List.mem_map.mp hmem with ⟨a, ha, hae⟩
          rcases List.mem_cons.mp ha with rfl | ha2
          · exact absurd hae hxe
          · exact List.mem_map.mpr ⟨a, ha2, hae⟩
        have hseen2 : e ∉ dedupKey x :: seen := by
          intro hmem3
          rcases List.mem_cons.mp hmem3 with h | h
          · exact hxe h.symm
          · exact hseen h
        exact ih _ e hseen2 hmem2

theorem removeDuplicates_find :
    ∀ (l : List Recipient) (seen : List String) (e : String), e ∉ seen →
      (removeDuplicates l seen).find? (fun r => dedupKey r == e) =
        l.find? (fun r => dedupKey r == e) := by
  intro l
  induction l with
  | nil => intro seen e _; simp [removeDuplicates]
  | cons x rest ih =>
    intro seen e hseen
    simp only [removeDuplicates]
    by_cases hx : dedupKey x ∈ seen
    · rw [if_pos hx]
      have hpb : (dedupKey x == e) = false := by
        simp only [beq_eq_false_iff_ne, ne_eq]
        intro h
        exact hseen (h ▸ hx)
      rw [ih seen e hseen]
      simp [List.find?_cons, hpb]
    · rw [if_neg hx]
      by_cases hxe : dedupKey x = e
      · have hpb : (dedupKey x == e) = true := by simp [hxe]
        simp [List.find?_cons, hpb]
      · have hpb : (dedupKey x == e) = false := by simp [hxe]
        simp only [List.find?_cons, hpb, cond_false]
        have hseen2 : e ∉ dedupKey x :: seen := by
          intro hmem
          rcases List.mem_cons.mp hmem with h | h
          · exact hxe h.symm
          · exact hseen h
        exact ih _ e hseen2

/-- C3: the dedup pass of src/app.py main keeps exactly one record per
case-insensitive email (for every key present in the input the filtered
output has length one), the kept record is the first occurrence in
encounter order (find? agrees with find? on the input), and the
surviving records keep their relative order (the output is a sublist),
with later duplicates silently dropped. -/
theorem claim_C3 (l : List Recipient) :
    List.Sublist (unique_recipients l) l ∧
    ((unique_recipients l).map dedupKey).Nodup ∧
    (∀ e : String, e ∈ l.map dedupKey →
      ((unique_recipients l).filter (fun r => dedupKey r == e)).length = 1) ∧
    (∀ e : String,
      (unique_recipients l).find? (fun r => dedupKey r == e) =
        l.find? (fun r => dedupKey r == e)) := by
  refine ⟨removeDuplicates_sublist l [], removeDuplicates_keys_nodup l [], ?_, ?_⟩
  · intro e he
    exact removeDuplicates_filter_length l [] e (by simp) he
  · intro e
    exact removeDuplicates_find l [] e (by simp)

theorem claim_C3_witness :
    ((unique_recipients demoRecipients).map dedupKey).Nodup ∧
    ((unique_recipients demoRecipients).filter
      (fun r => dedupKey r == "info@acme.com")).length = 1 ∧
    (unique_recipients demoRecipients).find? (fun r => dedupKey r == "info@acme.com") =
      demoRecipients.find? (fun r => dedupKey r == "info@acme.com") :=
  ⟨(claim_C3 demoRecipients).2.1,
   (claim_C3 demoRecipients).2.2.1 "info@acme.com" (by decide),
   (claim_C3 demoRecipients).2.2.2 "info@acme.com"⟩

theorem send_email_snd (ok : Bool) (s : AutomationState) :
    (send_email ok s).2 = ok := by
  cases ok <;> rfl

theorem sendLoopAux_state (delays : Nat → Nat) (total : Nat) :
    ∀ (outs : List Bool) (i : Nat) (s : AutomationState),
      (sendLoopAux delays total outs i s).1 =
        ⟨s.sent_count + outs.count true, s.failed_count + outs.count false⟩ := by
  intro outs
  induction outs with
  | nil => intro i s; cases s; simp [sendLoopAux]
  | cons ok rest ih =>
    intro i s
    cases ok <;>
      simp [sendLoopAux, send_email, ih, List.count_cons] <;> omega

theorem sendLoopAux_trace (delays : Nat → Nat) (total : Nat) :
    ∀ (outs : List Bool) (i : Nat) (s : AutomationState),
      (sendLoopAux delays total outs i s).2 =
        ((List.range outs.length).map (fun j =>
          LoopEvent.send (i + j) (outs.getD j false) ::
            (if i + j < total - 1 then [LoopEvent.sleep (delays (i + j))] else []))).flatten := by
  intro outs
  induction outs with
  | nil => intro i s; simp [sendLoopAux]
  | cons ok rest ih =>
    intro i s
    have hmap :
        (List.range rest.length).map
          ((fun j => LoopEvent.send (i + j) ((ok :: rest).getD j false) ::
              (if i + j < total - 1 then [LoopEvent.sleep (delays (i + j))] else [])) ∘
            Nat.succ) =
        (List.range rest.length).map (fun j =>
          LoopEvent.send ((i + 1) + j) (rest.getD j false) ::
            (if (i + 1) + j < total - 1 then
              [LoopEvent.sleep (delays ((i + 1) + j))] else [])) := by
      congr 1
      funext j
      have harith : i + (j + 1) = (i + 1) + j := by omega
      simp [Function.comp, List.getD_cons_succ, harith]
    simp only [sendLoopAux, send_email_snd]
    rw [ih (i + 1) (send_email ok s).1]
    simp only [List.length_cons, List.range_succ_eq_map, List.map_cons,
      List.flatten_cons, List.map_map]
    rw [hmap]
    simp [List.getD_cons_zero]

theorem sendLoop_trace (outcomes : List Bool) (delays : Nat → Nat) :
    (sendLoop outcomes delays).2 = pacedTrace outcomes delays := by
  unfold sendLoop pacedTrace
  rw [sendLoopAux_trace]
  simp

theorem sendLoopAux_indices (delays : Nat → Nat) (total : Nat) :
    ∀ (outs : List Bool) (i : Nat) (s : AutomationState),
      sentEventIndices (sendLoopAux delays total outs i s).2 =
        List.range' i outs.length := by
  intro outs
  induction outs with
  | nil => intro i s; simp [sendLoopAux, sentEventIndices]
  | cons ok rest ih =>
    intro i s
    have htail := ih (i + 1) (send_email ok s).1
    simp only [sendLoopAux, sentEventIndices] at htail ⊢
    simp only [List.length_cons, List.range'_succ]
    split <;> simp [List.filterMap_append, List.filterMap_cons, htail]

theorem mem_false_of_getD (l : List Bool) :
    ∀ (i : Nat), i < l.length → l.getD i true = false → false ∈ l := by
  induction l with
  | nil => intro i h; simp at h
  | cons a rest ih =>
    intro i h hv
    cases i with
    | zero =>
      simp only [List.getD_cons_zero] at hv
      simp [hv]
    | succ n =>
      simp only [List.getD_cons_succ] at hv
      exact List.mem_cons_of_mem _ (ih n (by simpa using h) hv)

/-- C4: a failing transmission at any index i does not unwind the loop:
send_email increments failed_count by exactly one and returns False,
every recipient index still gets a send event (the loop reaches i+1 and
all later indices), and the final counters tally every outcome. -/
theorem claim_C4 (outcomes : List Bool) (delays : Nat → Nat) (i : Nat)
    (h : i < outcomes.length) (hfail : outcomes.getD i true = false) :
    (∀ s, send_email false s = ({ s with failed_count := s.failed_count + 1 }, false)) ∧
    sentEventIndices (sendLoop outcomes delays).2 = List.range outcomes.length ∧
    (sendLoop outcomes delays).1 = ⟨outcomes.count true, outcomes.count false⟩ ∧
    1 ≤ outcomes.count false := by
  refine ⟨fun s => rfl, ?_, ?_, ?_⟩
  · unfold sendLoop
    rw [sendLoopAux_indices, List.range_eq_range']
  · unfold sendLoop
    rw [sendLoopAux_state]
    simp
  · have hmem : false ∈ outcomes := mem_false_of_getD outcomes i h hfail
    exact List.count_pos_iff.mpr hmem

theorem claim_C4_witness :
    sentEventIndices (sendLoop [true, false, true] (fun _ => 7)).2 = [0, 1, 2] ∧
    (sendLoop [true, false, true] (fun _ => 7)).1 = ⟨2, 1⟩ := by
  have h := claim_C4 [true, false, true] (fun _ => 7) 1 (by decide) (by decide)
  exact ⟨h.2.1.trans (by decide), h.2.2.1.trans (by decide)⟩

/-- C5: over any campaign the loop emits, for recipient i, a send event
followed by one pacing sleep of the drawn duration exactly when i is not
the last index (the canonical paced trace); every sleep duration lies in
the configured bounds when the random draw does; and the final summary
counts every recipient exactly once. -/
theorem claim_C5 (outcomes : List Bool) (delays : Nat → Nat) (minD maxD : Nat)
    (hd : ∀ i, minD ≤ delays i ∧ delays i ≤ maxD) :
    (sendLoop outcomes delays).2 = pacedTrace outcomes delays ∧
    (∀ d, LoopEvent.sleep d ∈ (sendLoop outcomes delays).2 → minD ≤ d ∧ d ≤ maxD) ∧
    (sendLoop outcomes delays).1 = ⟨outcomes.count true, outcomes.count false⟩ := by
  refine ⟨sendLoop_trace outcomes delays, ?_, ?_⟩
  · intro d hm
    rw [sendLoop_trace] at hm
    unfold pacedTrace at hm
    rcases List.mem_flatten.mp hm with ⟨blk, hblk, hdm⟩
    rcases List.mem_map.mp hblk with ⟨j, _, rfl⟩
    rcases List.mem_cons.mp hdm with heq | hdm2
    · simp at heq
    · by_cases hj2 : j < outcomes.length - 1
      · rw [if_pos hj2] at hdm2
        simp only [List.mem_singleton, LoopEvent.sleep.injEq] at hdm2
        rw [hdm2]
        exact hd j
      · rw [if_neg hj2] at hdm2
        simp at hdm2
  · unfold sendLoop
    rw [sendLoopAux_state]
    simp

theorem claim_C5_witness :
    (sendLoop [true, true, true] (fun _ => 10)).2 =
      [LoopEvent.send 0 true, LoopEvent.sleep 10, LoopEvent.send 1 true,
       LoopEvent.sleep 10, LoopEvent.send 2 true] ∧
    (sendLoop [true, true, true] (fun _ => 10)).1 = ⟨3, 0⟩ ∧
    [true, true, true].length = 3 := by
  have h := claim_C5 [true, true, true] (fun _ => 10) 10 10
    (fun _ => ⟨Nat.le_refl 10, Nat.le_refl 10⟩)
  exact ⟨h.1.trans (by decide), h.2.2.trans (by decide), rfl⟩

/-- C6: when the deduplicated recipient count exceeds the per-session cap
and the operator gives no override confirmation, EmailAutomation.run
refuses to start (returns before the loop) and emits no send event; and
whenever any send event occurs under an exceeded cap, the confirmation
flag was set. -/
theorem claim_C6 (recipients : List Recipient) (maxEmails : Nat) (outcomes : List Bool)
    (delays : Nat → Nat) (startIndex : Nat) (hcap : maxEmails < recipients.length) :
    run_cv true recipients maxEmails false outcomes delays startIndex =
      (RunOutcome.refusedCap, ⟨0, 0⟩, []) ∧
    (∀ connectOk confirm,
      sentEventIndices
        (run_cv connectOk recipients maxEmails confirm outcomes delays
          startIndex).2.2 ≠ [] →
      confirm = true) := by
  have hne : recipients ≠ [] := by
    intro h
    rw [h] at hcap
    simp at hcap
  constructor
  · unfold run_cv
    rw [if_neg (by simp), if_neg hne, if_pos ⟨hcap, rfl⟩]
  · intro connectOk confirm hev
    cases confirm
    · exfalso
      cases connectOk
      · refine hev ?_
        unfold run_cv
        rw [if_pos rfl]
        rfl
      · refine hev ?_
        unfold run_cv
        rw [if_neg (by simp), if_neg hne, if_pos ⟨hcap, rfl⟩]
        rfl
    · rfl

theorem claim_C6_witness :
    30 < (List.replicate 40 demoRecipient).length ∧
    run_cv true (List.replicate 40 demoRecipient) 30 false [] (fun _ => 0) 0 =
      (RunOutcome.refusedCap, ⟨0, 0⟩, []) :=
  ⟨by decide, (claim_C6 (List.replicate 40 demoRecipient) 30 [] (fun _ => 0) 0 (by decide)).1⟩

theorem charsToNat_append_digit (xs : List Char) (c : Char) :
    charsToNat (xs ++ [c]) = charsToNat xs * 10 + digitVal c := by
  unfold charsToNat
  rw [List.foldl_append]
  rfl

theorem digitVal_digitChar (d : Nat) (h : d < 10) :
    digitVal (digitChar d) = d := by
  interval_cases d <;> rfl

theorem charsToNat_natToCharsRev :
    ∀ (f n : Nat), n ≤ f → charsToNat (natToCharsRev f n).reverse = n := by
  intro f
  induction f with
  | zero =>
    intro n h
    interval_cases n
    rfl
  | succ f ih =>
    intro n h
    by_cases hn : n = 0
    · subst hn
      simp [natToCharsRev, charsToNat]
    · simp only [natToCharsRev, if_neg hn]
      rw [List.reverse_cons, charsToNat_append_digit,
        ih (n / 10) (by omega), digitVal_digitChar _ (Nat.mod_lt n (by omega))]
      omega

theorem charsToNat_natToChars (n : Nat) : charsToNat (natToChars n) = n := by
  unfold natToChars
  by_cases hn : n = 0
  · subst hn
    rfl
  · rw [if_neg hn]
    exact charsToNat_natToCharsRev n n (Nat.le_refl n)

theorem splitOnChar_no_sep (sep : Char) :
    ∀ (s : List Char), (∀ c ∈ s, c ≠ sep) → splitOnChar sep s = [s] := by
  intro s
  induction s with
  | nil => intro _; rfl
  | cons c rest ih =>
    intro h
    have hc : c ≠ sep := h c (List.mem_cons_self _ _)
    simp only [splitOnChar]
    rw [if_neg (by simp [hc])]
    rw [ih (fun x hx => h x (List.mem_cons_of_mem _ hx))]

theorem splitOnChar_append (sep : Char) :
    ∀ (a b : List Char), (∀ c ∈ a, c ≠ sep) →
      splitOnChar sep (a ++ sep :: b) = a :: splitOnChar sep b := by
  intro a
  induction a with
  | nil =>
    intro b _
    simp only [List.nil_append, splitOnChar]
    rw [if_pos (by simp)]
  | cons c a' ih =>
    intro b h
    have hc : c ≠ sep := h c (List.mem_cons_self _ _)
    simp only [List.cons_append, splitOnChar]
    rw [if_neg (by simp [hc])]
    simp only [List.append_eq]
    rw [ih b (fun x hx => h x (List.mem_cons_of_mem _ hx))]

theorem digitChar_ne_eqsign (d : Nat) : digitChar d ≠ '=' := by
  unfold digitChar
  repeat' split
  all_goals decide

theorem natToCharsRev_ne_eqsign :
    ∀ (f n : Nat), ∀ c ∈ natToCharsRev f n, c ≠ '=' := by
  intro f
  induction f with
  | zero => intro n c hc; simp [natToCharsRev] at hc
  | succ f ih =>
    intro n c hc
    by_cases hn : n = 0
    · subst hn
      simp [natToCharsRev] at hc
    · simp only [natToCharsRev, if_neg hn] at hc
      rcases List.mem_cons.mp hc with rfl | hc2
      · exact digitChar_ne_eqsign _
      · exact ih _ c hc2

theorem natToChars_ne_eqsign (n : Nat) : ∀ c ∈ natToChars n, c ≠ '=' := by
  intro c hc
  unfold natToChars at hc
  by_cases hn : n = 0
  · rw [if_pos hn] at hc
    have : c = '0' := by simpa using hc
    subst this
    decide
  · rw [if_neg hn] at hc
    exact natToCharsRev_ne_eqsign n n c (List.mem_reverse.mp hc)

theorem isPrefixOf_append_self (a b : List Char) :
    a.isPrefixOf (a ++ b) = true := by
  induction a with
  | nil => cases b <;> rfl
  | cons c a' ih => simp [List.isPrefixOf, ih]

/-- C7 (amended): the progress file written by save_progress makes
load_progress return exactly the saved cursor, whatever state the file
had before; saving twice is the same as saving once (the file is
overwritten); and the record persists the two counters textually (their
decimal renderings parse back), even though load_progress never reads
them. -/
theorem claim_C7 (cursor sent failed : Nat) (ts : List Char)
    (prev prev2 : Option (List (List Char))) :
    load_progress (save_progress cursor sent failed ts prev) = cursor ∧
    save_progress cursor sent failed ts (save_progress cursor sent failed ts prev2) =
      save_progress cursor sent failed ts prev ∧
    save_progress cursor sent failed ts prev =
      some [("last_sent_index=".data ++ natToChars cursor),
            ("sent_count=".data ++ natToChars sent),
            ("failed_count=".data ++ natToChars failed),
            ("timestamp=".data ++ ts)] ∧
    charsToNat (natToChars sent) = sent ∧
    charsToNat (natToChars failed) = failed := by
  refine ⟨?_, rfl, rfl, charsToNat_natToChars sent, charsToNat_natToChars failed⟩
  have hline :
      ("last_sent_index=".data.isPrefixOf
        ("last_sent_index=".data ++ natToChars cursor)) = true :=
    isPrefixOf_append_self _ _
  simp only [save_progress, load_progress, List.find?_cons, hline]
  have hdecomp : "last_sent_index=".data ++ natToChars cursor =
      "last_sent_index".data ++ '=' :: natToChars cursor := rfl
  rw [hdecomp, splitOnChar_append _ _ _ (by decide),
    splitOnChar_no_sep _ _ (natToChars_ne_eqsign cursor)]
  simpa using charsToNat_natToChars cursor

/-- C7 counterexample: after save_progress(cursor=5, sent=5, failed=0)
twice, the state observable after a resume is cursor 5 with counters 0
and 0 (load_progress returns only the cursor; the fresh EmailAutomation
restarts both counters at 0), not the saved triple (5, 5, 0). -/
theorem claim_C7_counterexample :
    resume_state (save_progress 5 5 0 "t".data (save_progress 5 5 0 "t".data none)) =
      (5, 0, 0) ∧
    ((5, 0, 0) : Nat × Nat × Nat) ≠ (5, 5, 0) := by
  constructor
  · decide
  · decide

theorem getD_mem_of_lt {α : Type} (l : List α) (n : Nat) (d : α) (h : n < l.length) :
    l.getD n d ∈ l := by
  induction l generalizing n with
  | nil => simp at h
  | cons a rest ih =>
    cases n with
    | zero => simp [List.getD_cons_zero]
    | succ m =>
      simp only [List.getD_cons_succ]
      exact List.mem_cons_of_mem _ (ih m (by simpa using h))

/-- C8 counterexample: with greeting draw Bonjour and name Ali the code
produces the string Bonjour Ali, (greeting, space, name, comma), not the
claimed format greeting, comma, space, name. -/
theorem claim_C8_counterexample :
    get_random_greeting ["Bonjour", "Salut", "Bonjour"] 0 "Ali" = "Bonjour Ali," ∧
    get_random_greeting ["Bonjour", "Salut", "Bonjour"] 0 "Ali" ≠ "Bonjour, Ali" := by
  constructor
  · rfl
  · decide

/-- C8 (amended): for every recipient the greeting is one draw g from the
configured greeting variants rendered as g, a space, the name and a
trailing comma when the name is present and non-empty, and as g followed
by a comma when it is absent. -/
theorem claim_C8 (greetings : List String) (draw : Nat)
    (h : draw < greetings.length) (name : String) :
    ∃ g ∈ greetings,
      get_random_greeting greetings draw name =
        (if name = "" then g ++ "," else g ++ " " ++ name ++ ",") :=
  ⟨greetings.getD draw "", getD_mem_of_lt greetings draw "" h, rfl⟩

theorem claim_C8_witness :
    0 < (["Bonjour", "Salut", "Bonjour"] : List String).length ∧
    ∃ g ∈ (["Bonjour", "Salut", "Bonjour"] : List String),
      get_random_greeting ["Bonjour", "Salut", "Bonjour"] 0 "Ali" =
        (if "Ali" = "" then g ++ "," else g ++ " " ++ "Ali" ++ ",") :=
  ⟨by decide, claim_C8 ["Bonjour", "Salut", "Bonjour"] 0 (by decide) "Ali"⟩

theorem contains_iff_mem_char (l : List Char) (c : Char) :
    l.contains c = true ↔ c ∈ l := by
  simp [List.contains, List.elem_iff]

theorem ite_some_none_inv {P : Prop} [Decidable P] {x r : RecipientC}
    (h : (if P then some x else none) = some r) : P ∧ x = r := by
  split at h
  · exact ⟨by assumption, Option.some.inj h⟩
  · exact absurd h (by simp)

theorem rowRecordNoHeader_validated (row0 : List (List Char)) (r : RecipientC)
    (h : rowRecordNoHeader row0 = some r) :
    r.email ≠ [] ∧ validate_email r.email = true := by
  unfold rowRecordNoHeader at h
  by_cases hemp : row0.isEmpty = true
  · rw [if_pos hemp] at h
    exact absurd h (by simp)
  · rw [if_neg hemp] at h
    obtain ⟨hcond, hmk⟩ := ite_some_none_inv h
    subst hmk
    exact hcond

theorem rowRecordHeader_validated (header row : List (List Char)) (r : RecipientC)
    (h : rowRecordHeader header row = some r) :
    r.email ≠ [] ∧ validate_email r.email = true := by
  unfold rowRecordHeader at h
  obtain ⟨hcond, hmk⟩ := ite_some_none_inv h
  subst hmk
  exact hcond

theorem mem_splitOnChar_getD0 (sep : Char) :
    ∀ (s : List Char) (c : Char), c ∈ (splitOnChar sep s).getD 0 [] → c ∈ s := by
  intro s
  induction s with
  | nil => intro c hc; simp [splitOnChar] at hc
  | cons x rest ih =>
    intro c hc
    simp only [splitOnChar] at hc
    by_cases hx : (x == sep) = true
    · rw [if_pos hx] at hc
      simp at hc
    · rw [if_neg hx] at hc
      rcases hsr : splitOnChar sep rest with _ | ⟨h0, t⟩
      · rw [hsr] at hc
        have : c = x := by simpa using hc
        subst this
        exact List.mem_cons_self _ _
      · rw [hsr] at hc
        simp only [List.getD_cons_zero] at hc
        rcases List.mem_cons.mp hc with rfl | hc2
        · exact List.mem_cons_self _ _
        · have hmem : c ∈ (splitOnChar sep rest).getD 0 [] := by
            rw [hsr]
            simpa using hc2
          exact List.mem_cons_of_mem _ (ih c hmem)

theorem mem_splitOnChar_getD1 (sep : Char) :
    ∀ (s : List Char) (c : Char), c ∈ (splitOnChar sep s).getD 1 [] →
      c ∈ s.dropWhile (fun x => x != sep) := by
  intro s
  induction s with
  | nil => intro c hc; simp [splitOnChar] at hc
  | cons x rest ih =>
    intro c hc
    simp only [splitOnChar] at hc
    by_cases hx : (x == sep) = true
    · rw [if_pos hx] at hc
      simp only [List.getD_cons_succ] at hc
      have hmem := mem_splitOnChar_getD0 sep rest c hc
      have hpred : (x != sep) = false := by simpa using hx
      rw [List.dropWhile_cons, hpred]
      simp only [Bool.false_eq_true, if_false]
      exact List.mem_cons_of_mem _ hmem
    · rw [if_neg hx] at hc
      rcases hsr : splitOnChar sep rest with _ | ⟨h0, t⟩
      · rw [hsr] at hc
        simp at hc
      · rw [hsr] at hc
        simp only [List.getD_cons_succ] at hc
        have hmem : c ∈ (splitOnChar sep rest).getD 1 [] := by
          rw [hsr]
          simpa using hc
        have hdrop := ih c hmem
        have hpred : (x != sep) = true := by simpa using hx
        rw [List.dropWhile_cons, hpred]
        simp only [if_true]
        exact hdrop

/-- C2 (amended): every record the csv Resolver accepts into its output
has a non-empty email passing validate_email; validate_email accepts
exactly the strings with at least one at-sign whose split('@')[1]
segment (between the first and second at-sign, or the remainder when
there is only one) contains a dot; candidates with no at-sign, or with
no dot anywhere after the first at-sign, are excluded. Exactly one
at-sign is not required: an address with a second at-sign after a dotted
segment is accepted (see the counterexample). -/
theorem claim_C2 :
    (∀ (content : List Char) (r : RecipientC), r ∈ load_recipients_from_csv content →
      r.email ≠ [] ∧ validate_email r.email = true) ∧
    (∀ email : List Char, validate_email email = true ↔
      ('@' ∈ email ∧ '.' ∈ (splitOnChar '@' email).getD 1 [])) ∧
    (∀ email : List Char, '@' ∉ email → validate_email email = false) ∧
    (∀ email : List Char, '.' ∉ email.dropWhile (fun c => c != '@') →
      validate_email email = false) := by
  have hiff : ∀ email : List Char, validate_email email = true ↔
      ('@' ∈ email ∧ '.' ∈ (splitOnChar '@' email).getD 1 []) := by
    intro email
    unfold validate_email
    rw [Bool.and_eq_true, contains_iff_mem_char, contains_iff_mem_char]
  refine ⟨?_, hiff, ?_, ?_⟩
  · intro content r hr
    unfold load_recipients_from_csv at hr
    split at hr
    · simp at hr
    · split at hr
      · split at hr
        · simp at hr
        · rcases List.mem_filterMap.mp hr with ⟨row, _, hrow⟩
          exact rowRecordHeader_validated _ row r hrow
      · rcases List.mem_filterMap.mp hr with ⟨row, _, hrow⟩
        exact rowRecordNoHeader_validated row r hrow
  · intro email hni
    cases hv : validate_email email
    · rfl
    · exact absurd ((hiff email).mp hv).1 hni
  · intro email hnd
    cases hv : validate_email email
    · rfl
    · exact absurd (mem_splitOnChar_getD1 '@' email '.' ((hiff email).mp hv).2) hnd

/-- C2 counterexample: the csv Resolver accepts a@b.c@d (two at-signs)
into its output, because validate_email only inspects the segment
between the first and second at-sign; the claim that acceptance requires
exactly one at-sign is false. -/
theorem claim_C2_counterexample :
    load_recipients_from_csv "a@b.c@d,Bob".data =
      [⟨"a@b.c@d".data, "Bob".data, []⟩] ∧
    "a@b.c@d".data.count '@' = 2 ∧
    validate_email "a@b.c@d".data = true := by
  refine ⟨by decide, by decide, by decide⟩

theorem claim_C2_witness :
    ((⟨"user@x.com".data, "Ann".data, []⟩ : RecipientC).email ≠ [] ∧
      validate_email (⟨"user@x.com".data, "Ann".data, []⟩ : RecipientC).email = true) ∧
    validate_email "nodotafter@nodomain".data = false :=
  ⟨claim_C2.1 "user@x.com,Ann".data ⟨"user@x.com".data, "Ann".data, []⟩ (by decide),
   claim_C2.2.2.2 "nodotafter@nodomain".data (by decide)⟩

/-- C9: on the three-line free-text input the Resolver returns exactly
three records in order: john at x dot com with empty name, jane at x dot
com with name Jane Doe (angle-bracket form), and bob at x dot com with
name Bob, the comma stripped from the name. -/
theorem claim_C9 :
    parse_text_form_recipients
        "john@x.com\nJane Doe <jane@x.com>\nBob, bob@x.com".data =
      [⟨"john@x.com".data, [], []⟩,
       ⟨"jane@x.com".data, "Jane Doe".data, []⟩,
       ⟨"bob@x.com".data, "Bob".data, []⟩] := by
  decide

/-- C1 counterexample: the colon-spacing pre-pass of
smart_format_template runs before the style blocks are protected, so
the style region of the rendered output is not byte-identical to the
verbatim style block of the input template: color: red comes out as
color:red. -/
theorem claim_C1_counterexample :
    styleRegions (smart_format_template []
        "<style>a \x7b color: red; \x7d</style>".data) =
      ["<style>a \x7b color:red; \x7d</style>".data] ∧
    styleRegions "<style>a \x7b color: red; \x7d</style>".data =
      ["<style>a \x7b color: red; \x7d</style>".data] ∧
    styleRegions (smart_format_template []
        "<style>a \x7b color: red; \x7d</style>".data) ≠
      styleRegions "<style>a \x7b color: red; \x7d</style>".data := by
  refine ⟨by decide, by decide, by decide⟩

theorem takeWhile_append_stop (p : Char → Bool) :
    ∀ (v : List Char) (x : Char) (rest : List Char), (∀ c ∈ v, p c = true) →
      p x = false →
      (v ++ x :: rest).takeWhile p = v ∧ (v ++ x :: rest).dropWhile p = x :: rest := by
  intro v
  induction v with
  | nil =>
    intro x rest _ hx
    simp [List.takeWhile_cons, List.dropWhile_cons, hx]
  | cons a v' ih =>
    intro x rest hv hx
    have ha : p a = true := hv a (List.mem_cons_self _ _)
    have hih := ih x rest (fun c hc => hv c (List.mem_cons_of_mem _ hc)) hx
    simp [List.takeWhile_cons, List.dropWhile_cons, ha, hih.1, hih.2]

theorem replaceAllF_noOcc (pat repl : List Char) :
    ∀ (s : List Char) (f : Nat),
      (∀ i < s.length, pat.isPrefixOf (s.drop i) = false) → s.length ≤ f →
      replaceAllF f pat repl s = s := by
  intro s
  induction s with
  | nil => intro f _ _; cases f <;> rfl
  | cons c rest ih =>
    intro f h hf
    cases f with
    | zero => simp at hf
    | succ f' =>
      have h0 := h 0 (by simp)
      simp only [List.drop_zero] at h0
      simp only [replaceAllF]
      rw [if_neg (by simp [h0])]
      rw [ih f'
        (fun i hi => by
          simpa [List.drop_succ_cons] using h (i + 1) (by simp only [List.length_cons]; omega))
        (by simp only [List.length_cons] at hf; omega)]

theorem replaceAllF_single (p : Char) (ps repl : List Char) :
    ∀ (P Q : List Char) (f : Nat),
      (∀ i < P.length, (p :: ps).isPrefixOf ((P ++ ((p :: ps) ++ Q)).drop i) = false) →
      (∀ i < Q.length, (p :: ps).isPrefixOf (Q.drop i) = false) →
      (P ++ ((p :: ps) ++ Q)).length ≤ f →
      replaceAllF f (p :: ps) repl (P ++ ((p :: ps) ++ Q)) = P ++ (repl ++ Q) := by
  intro P
  induction P with
  | nil =>
    intro Q f hP hQ hf
    rw [List.nil_append, List.nil_append]
    cases f with
    | zero =>
      exfalso
      simp only [List.nil_append, List.length_append, List.length_cons] at hf
      omega
    | succ f' =>
      rw [List.cons_append]
      simp only [replaceAllF]
      split
      · have hdrop : (p :: (ps ++ Q)).drop (p :: ps).length = Q := by
          rw [List.length_cons, List.drop_succ_cons]
          exact List.drop_left ps Q
        rw [hdrop, replaceAllF_noOcc _ _ Q f' hQ (by
          simp only [List.nil_append, List.length_append, List.length_cons] at hf
          omega)]
      · rename_i hcon
        exfalso
        exact hcon ⟨by simp, isPrefixOf_append_self (p :: ps) Q⟩
  | cons a P' ih =>
    intro Q f hP hQ hf
    have hP' : ∀ i < P'.length,
        (p :: ps).isPrefixOf ((P' ++ ((p :: ps) ++ Q)).drop i) = false := by
      intro i hi
      have h := hP (i + 1) (by simp only [List.length_cons]; omega)
      rw [List.cons_append, List.drop_succ_cons] at h
      exact h
    have h0 := hP 0 (by simp)
    rw [List.drop_zero, List.cons_append] at h0
    cases f with
    | zero =>
      exfalso
      simp only [List.length_append, List.length_cons] at hf
      omega
    | succ f' =>
      have hih := ih Q f' hP' hQ (by
        simp only [List.length_append, List.length_cons] at hf ⊢
        omega)
      rw [List.cons_append]
      simp only [replaceAllF]
      split
      · rename_i hcon
        exfalso
        have h1 := hcon.2
        rw [h0] at h1
        exact Bool.false_ne_true h1
      · rw [hih]
        simp

theorem extractStyle_noStart :
    ∀ (B : List Char) (f k : Nat),
      (∀ i < B.length, "<style>".data.isPrefixOf (B.drop i) = false) →
      B.length ≤ f → extractStyleF f B k = (B, []) := by
  intro B
  induction B with
  | nil => intro f k _ _; cases f <;> rfl
  | cons c rest ih =>
    intro f k h hf
    cases f with
    | zero => simp at hf
    | succ f' =>
      have h0 := h 0 (by simp)
      rw [List.drop_zero] at h0
      simp only [extractStyleF]
      split
      · rename_i hcon
        exfalso
        rw [h0] at hcon
        exact Bool.false_ne_true hcon
      · rw [ih f' k
          (fun i hi => by
            simpa [List.drop_succ_cons] using h (i + 1) (by simp only [List.length_cons]; omega))
          (by simp only [List.length_cons] at hf; omega)]

theorem extractStyle_skip :
    ∀ (A s : List Char) (f k : Nat),
      (∀ i < A.length, "<style>".data.isPrefixOf ((A ++ s).drop i) = false) →
      A.length + s.length ≤ f →
      extractStyleF f (A ++ s) k =
        (A ++ (extractStyleF (f - A.length) s k).1, (extractStyleF (f - A.length) s k).2) := by
  intro A
  induction A with
  | nil => intro s f k _ _; simp
  | cons a A' ih =>
    intro s f k h hf
    have hA' : ∀ i < A'.length, "<style>".data.isPrefixOf ((A' ++ s).drop i) = false := by
      intro i hi
      have h2 := h (i + 1) (by simp only [List.length_cons]; omega)
      rw [List.cons_append, List.drop_succ_cons] at h2
      exact h2
    have h0 := h 0 (by simp)
    rw [List.drop_zero, List.cons_append] at h0
    cases f with
    | zero =>
      exfalso
      simp only [List.length_cons] at hf
      omega
    | succ f' =>
      rw [List.cons_append]
      simp only [extractStyleF]
      split
      · rename_i hcon
        exfalso
        rw [h0] at hcon
        exact Bool.false_ne_true hcon
      · rw [ih s f' k hA' (by simp only [List.length_cons] at hf; omega)]
        have harith : f' + 1 - (a :: A').length = f' - A'.length := by
          simp only [List.length_cons]
          omega
        rw [harith]
        simp

theorem splitOnFirst_append (p : Char) (ps : List Char) :
    ∀ (C B : List Char),
      (∀ i < C.length, (p :: ps).isPrefixOf ((C ++ ((p :: ps) ++ B)).drop i) = false) →
      splitOnFirst (p :: ps) (C ++ ((p :: ps) ++ B)) = some (C, B) := by
  intro C
  induction C with
  | nil =>
    intro B _
    rw [List.nil_append, List.cons_append]
    simp only [splitOnFirst]
    rw [if_pos (show (p :: ps).isPrefixOf (p :: (ps ++ B)) = true from
      isPrefixOf_append_self (p :: ps) B)]
    have hdrop : (p :: (ps ++ B)).drop (p :: ps).length = B := by
      rw [List.length_cons, List.drop_succ_cons]
      exact List.drop_left ps B
    rw [hdrop]
  | cons c C' ih =>
    intro B h
    have hC' : ∀ i < C'.length,
        (p :: ps).isPrefixOf ((C' ++ ((p :: ps) ++ B)).drop i) = false := by
      intro i hi
      have h2 := h (i + 1) (by simp only [List.length_cons]; omega)
      rw [List.cons_append, List.drop_succ_cons] at h2
      exact h2
    have h0 := h 0 (by simp)
    rw [List.drop_zero, List.cons_append] at h0
    rw [List.cons_append]
    simp only [splitOnFirst]
    split
    · rename_i hcon
      exfalso
      rw [h0] at hcon
      exact Bool.false_ne_true hcon
    · rw [ih B hC']

theorem extractInline_noStart :
    ∀ (s : List Char) (f k : Nat),
      (∀ i < s.length, "style=\"".data.isPrefixOf (s.drop i) = false) →
      s.length ≤ f → extractInlineF f s k = (s, []) := by
  intro s
  induction s with
  | nil => intro f k _ _; cases f <;> rfl
  | cons c rest ih =>
    intro f k h hf
    cases f with
    | zero => simp at hf
    | succ f' =>
      have h0 := h 0 (by simp)
      rw [List.drop_zero] at h0
      simp only [extractInlineF]
      split
      · rename_i hcon
        exfalso
        rw [h0] at hcon
        exact Bool.false_ne_true hcon
      · rw [ih f' k
          (fun i hi => by
            simpa [List.drop_succ_cons] using h (i + 1) (by simp only [List.length_cons]; omega))
          (by simp only [List.length_cons] at hf; omega)]

theorem findVars_noBrace :
    ∀ (s : List Char) (f : Nat), '\x7b' ∉ s → s.length ≤ f → findVarsF f s = [] := by
  intro s
  induction s with
  | nil => intro f _ _; cases f <;> rfl
  | cons c rest ih =>
    intro f h hf
    cases f with
    | zero => simp at hf
    | succ f' =>
      have hc : (c == '\x7b') = false := by
        simp only [beq_eq_false_iff_ne, ne_eq]
        intro hh
        exact h (hh ▸ List.mem_cons_self _ _)
      simp only [findVarsF]
      rw [if_neg (by simp [hc])]
      exact ih f' (fun hm => h (List.mem_cons_of_mem _ hm))
        (by simp only [List.length_cons] at hf; omega)

theorem findVars_single (v : List Char) (hv : v ≠ []) (hvr : '\x7d' ∉ v) :
    ∀ (P Q : List Char) (f : Nat), '\x7b' ∉ P → '\x7b' ∉ Q →
      (P ++ ('\x7b' :: (v ++ ('\x7d' :: Q)))).length ≤ f →
      findVarsF f (P ++ ('\x7b' :: (v ++ ('\x7d' :: Q)))) = [v] := by
  intro P
  induction P with
  | nil =>
    intro Q f _ hQ hf
    rw [List.nil_append]
    cases f with
    | zero =>
      exfalso
      simp only [List.nil_append, List.length_cons, List.length_append] at hf
      omega
    | succ f' =>
      simp only [findVarsF]
      rw [if_pos (by decide)]
      have htw := takeWhile_append_stop (fun ch => ch != '\x7d') v '\x7d' Q
        (fun c hc => by
          simp only [bne_iff_ne, ne_eq, decide_eq_true_eq]
          intro hcc
          exact hvr (hcc ▸ hc))
        (by simp)
      rw [htw.1, htw.2]
      have hvempty : v.isEmpty = false := by
        cases v with
        | nil => exact absurd rfl hv
        | cons a b => rfl
      rw [if_neg (by simp [hvempty])]
      show v :: findVarsF f' Q = [v]
      rw [findVars_noBrace Q f' hQ (by
        simp only [List.nil_append, List.length_cons, List.length_append] at hf
        omega)]
  | cons c P' ih =>
    intro Q f hP hQ hf
    have hc : (c == '\x7b') = false := by
      simp only [beq_eq_false_iff_ne, ne_eq]
      intro hh
      exact hP (hh ▸ List.mem_cons_self _ _)
    cases f with
    | zero =>
      exfalso
      simp only [List.length_cons, List.length_append] at hf
      omega
    | succ f' =>
      rw [List.cons_append]
      simp only [findVarsF]
      rw [if_neg (by simp [hc])]
      exact ih Q f' (fun hm => hP (List.mem_cons_of_mem _ hm)) hQ
        (by simp only [List.length_cons, List.length_append] at hf ⊢; omega)

theorem extractStyle_single (A C B : List Char) (f k : Nat)
    (hA : ∀ i < A.length,
      "<style>".data.isPrefixOf
        ((A ++ ("<style>".data ++ (C ++ ("</style>".data ++ B)))).drop i) = false)
    (hC : ∀ i < C.length,
      "</style>".data.isPrefixOf ((C ++ ("</style>".data ++ B)).drop i) = false)
    (hB : ∀ i < B.length, "<style>".data.isPrefixOf (B.drop i) = false)
    (hf : (A ++ ("<style>".data ++ (C ++ ("</style>".data ++ B)))).length ≤ f) :
    extractStyleF f (A ++ ("<style>".data ++ (C ++ ("</style>".data ++ B)))) k =
      (A ++ (styleMarker k ++ B),
       ["<style>".data ++ C ++ "</style>".data]) := by
  have hlenO : ("<style>".data).length = 7 := rfl
  have hlenC : ("</style>".data).length = 8 := rfl
  rw [extractStyle_skip A _ f k hA (by
    simp only [List.length_append] at hf
    simp only [List.length_append]
    omega)]
  have hglen : ("<style>".data ++ (C ++ ("</style>".data ++ B))).length ≤ f - A.length := by
    simp only [List.length_append] at hf ⊢
    omega
  cases hg0 : f - A.length with
  | zero =>
    exfalso
    rw [hg0] at hglen
    simp only [List.length_append, hlenO] at hglen
    omega
  | succ g' =>
    rw [show "<style>".data ++ (C ++ ("</style>".data ++ B)) =
      '<' :: ("style>".data ++ (C ++ ("</style>".data ++ B))) from rfl]
    simp only [extractStyleF]
    rw [if_pos (show ("<style>".data.isPrefixOf
        ('<' :: ("style>".data ++ (C ++ ("</style>".data ++ B))))) = true from
      isPrefixOf_append_self "<style>".data _)]
    have hdrop7 : ('<' :: ("style>".data ++ (C ++ ("</style>".data ++ B)))).drop
        ("<style>".data).length = C ++ ("</style>".data ++ B) :=
      List.drop_left "<style>".data (C ++ ("</style>".data ++ B))
    rw [show ('<' :: ("style>".data ++ (C ++ ("</style>".data ++ B)))).drop 7 =
        C ++ ("</style>".data ++ B) from hdrop7]
    have hsplitC : splitOnFirst "</style>".data (C ++ ("</style>".data ++ B)) =
        some (C, B) :=
      splitOnFirst_append '<' "/style>".data C B hC
    rw [hsplitC]
    dsimp only
    rw [extractStyle_noStart B g' (k + 1) hB (by
      simp only [List.length_append, hlenO, hlenC] at hglen
      omega)]

/-- C1 (amended): byte-identity of style blocks holds only relative to
the colon-spacing normalization that smart_format_template first applies
to the whole template (the counterexample shows the original claim fails
on a block containing a colon followed by a space). For every template
that is already colon-normal, of the shape prefix, one recognized braced
token, infix, one style block and suffix, with no stray style tags,
style attributes, braces or sentinel collisions outside the block (the
listed prefix-freeness side conditions), rendering substitutes the token
and extraction of the style region of the output returns exactly the
block of the template, byte-identical. -/
theorem claim_C1 (A1 v A2 C B val : List Char)
    (kwargs : List (List Char × List Char))
    (hnorm : colonFixF ((A1 ++ ('\x7b' :: (v ++ ('\x7d' :: A2)))) ++
        ("<style>".data ++ (C ++ ("</style>".data ++ B)))).length
        ((A1 ++ ('\x7b' :: (v ++ ('\x7d' :: A2)))) ++
          ("<style>".data ++ (C ++ ("</style>".data ++ B)))) =
      (A1 ++ ('\x7b' :: (v ++ ('\x7d' :: A2)))) ++
        ("<style>".data ++ (C ++ ("</style>".data ++ B))))
    (hA : ∀ i < (A1 ++ ('\x7b' :: (v ++ ('\x7d' :: A2)))).length,
      "<style>".data.isPrefixOf
        (((A1 ++ ('\x7b' :: (v ++ ('\x7d' :: A2)))) ++
          ("<style>".data ++ (C ++ ("</style>".data ++ B)))).drop i) = false)
    (hC : ∀ i < C.length,
      "</style>".data.isPrefixOf ((C ++ ("</style>".data ++ B)).drop i) = false)
    (hB : ∀ i < B.length, "<style>".data.isPrefixOf (B.drop i) = false)
    (hInl : ∀ i < ((A1 ++ ('\x7b' :: (v ++ ('\x7d' :: A2)))) ++
        (styleMarker 0 ++ B)).length,
      "style=\"".data.isPrefixOf
        (((A1 ++ ('\x7b' :: (v ++ ('\x7d' :: A2)))) ++
          (styleMarker 0 ++ B)).drop i) = false)
    (hv : v ≠ []) (hvr : '\x7d' ∉ v)
    (hbr1 : '\x7b' ∉ A1) (hbr2 : '\x7b' ∉ (A2 ++ (styleMarker 0 ++ B)))
    (hfind : kwargs.find? (fun kv => kv.1 == v) = some (v, val))
    (hsubP : ∀ i < A1.length,
      ('\x7b' :: (v ++ ['\x7d'])).isPrefixOf
        ((A1 ++ (('\x7b' :: (v ++ ['\x7d'])) ++
          (A2 ++ (styleMarker 0 ++ B)))).drop i) = false)
    (hsubQ : ∀ i < (A2 ++ (styleMarker 0 ++ B)).length,
      ('\x7b' :: (v ++ ['\x7d'])).isPrefixOf
        ((A2 ++ (styleMarker 0 ++ B)).drop i) = false)
    (hresP : ∀ i < (A1 ++ (val ++ A2)).length,
      (styleMarker 0).isPrefixOf
        (((A1 ++ (val ++ A2)) ++ (styleMarker 0 ++ B)).drop i) = false)
    (hresQ : ∀ i < B.length, (styleMarker 0).isPrefixOf (B.drop i) = false)
    (hA2 : ∀ i < (A1 ++ (val ++ A2)).length,
      "<style>".data.isPrefixOf
        (((A1 ++ (val ++ A2)) ++
          ("<style>".data ++ (C ++ ("</style>".data ++ B)))).drop i) = false) :
    smart_format_template kwargs
        ((A1 ++ ('\x7b' :: (v ++ ('\x7d' :: A2)))) ++
          ("<style>".data ++ (C ++ ("</style>".data ++ B)))) =
      (A1 ++ (val ++ A2)) ++ ("<style>".data ++ (C ++ ("</style>".data ++ B))) ∧
    styleRegions (smart_format_template kwargs
        ((A1 ++ ('\x7b' :: (v ++ ('\x7d' :: A2)))) ++
          ("<style>".data ++ (C ++ ("</style>".data ++ B))))) =
      ["<style>".data ++ C ++ "</style>".data] ∧
    styleRegions ((A1 ++ ('\x7b' :: (v ++ ('\x7d' :: A2)))) ++
        ("<style>".data ++ (C ++ ("</style>".data ++ B)))) =
      ["<style>".data ++ C ++ "</style>".data] := by
  have hext := extractStyle_single (A1 ++ ('\x7b' :: (v ++ ('\x7d' :: A2)))) C B
    ((A1 ++ ('\x7b' :: (v ++ ('\x7d' :: A2)))) ++
      ("<style>".data ++ (C ++ ("</style>".data ++ B)))).length 0
    hA hC hB (Nat.le_refl _)
  have hreg_t : styleRegions ((A1 ++ ('\x7b' :: (v ++ ('\x7d' :: A2)))) ++
      ("<style>".data ++ (C ++ ("</style>".data ++ B)))) =
      ["<style>".data ++ C ++ "</style>".data] := by
    unfold styleRegions
    rw [hext]
  have hinl := extractInline_noStart
    ((A1 ++ ('\x7b' :: (v ++ ('\x7d' :: A2)))) ++ (styleMarker 0 ++ B))
    ((A1 ++ ('\x7b' :: (v ++ ('\x7d' :: A2)))) ++ (styleMarker 0 ++ B)).length 0
    hInl (Nat.le_refl _)
  have hPp_shape : (A1 ++ ('\x7b' :: (v ++ ('\x7d' :: A2)))) ++ (styleMarker 0 ++ B) =
      A1 ++ ('\x7b' :: (v ++ ('\x7d' :: (A2 ++ (styleMarker 0 ++ B))))) := by
    simp [List.append_assoc]
  have hvars : findVarsF
      ((A1 ++ ('\x7b' :: (v ++ ('\x7d' :: A2)))) ++ (styleMarker 0 ++ B)).length
      ((A1 ++ ('\x7b' :: (v ++ ('\x7d' :: A2)))) ++ (styleMarker 0 ++ B)) = [v] := by
    rw [hPp_shape]
    exact findVars_single v hv hvr A1 (A2 ++ (styleMarker 0 ++ B)) _ hbr1 hbr2
      (Nat.le_refl _)
  have htok_shape : A1 ++ ('\x7b' :: (v ++ ('\x7d' :: (A2 ++ (styleMarker 0 ++ B))))) =
      A1 ++ (('\x7b' :: (v ++ ['\x7d'])) ++ (A2 ++ (styleMarker 0 ++ B))) := by
    simp
  have hsub : substVars kwargs [v]
      ((A1 ++ ('\x7b' :: (v ++ ('\x7d' :: A2)))) ++ (styleMarker 0 ++ B)) =
      A1 ++ (val ++ (A2 ++ (styleMarker 0 ++ B))) := by
    simp only [substVars, List.foldl_cons, List.foldl_nil, hfind, replaceAll]
    rw [hPp_shape, htok_shape]
    exact replaceAllF_single '\x7b' (v ++ ['\x7d']) val A1
      (A2 ++ (styleMarker 0 ++ B)) _ hsubP hsubQ (Nat.le_refl _)
  have hX_shape : A1 ++ (val ++ (A2 ++ (styleMarker 0 ++ B))) =
      (A1 ++ (val ++ A2)) ++ (styleMarker 0 ++ B) := by
    simp [List.append_assoc]
  have hrepl : replaceAll (styleMarker 0) ("<style>".data ++ C ++ "</style>".data)
      ((A1 ++ (val ++ A2)) ++ (styleMarker 0 ++ B)) =
      (A1 ++ (val ++ A2)) ++ (("<style>".data ++ C ++ "</style>".data) ++ B) := by
    simp only [replaceAll]
    exact replaceAllF_single '_' "_STYLE_BLOCK_0__".data
      ("<style>".data ++ C ++ "</style>".data) (A1 ++ (val ++ A2)) B _ hresP hresQ
      (Nat.le_refl _)
  have hO_shape : (A1 ++ (val ++ A2)) ++ (("<style>".data ++ C ++ "</style>".data) ++ B) =
      (A1 ++ (val ++ A2)) ++ ("<style>".data ++ (C ++ ("</style>".data ++ B))) := by
    simp [List.append_assoc]
  have hmain : smart_format_template kwargs
      ((A1 ++ ('\x7b' :: (v ++ ('\x7d' :: A2)))) ++
        ("<style>".data ++ (C ++ ("</style>".data ++ B)))) =
      (A1 ++ (val ++ A2)) ++ ("<style>".data ++ (C ++ ("</style>".data ++ B))) := by
    simp only [smart_format_template]
    rw [hnorm, hext]
    dsimp only
    rw [hinl]
    dsimp only
    rw [hvars, hsub, hX_shape]
    show replaceAll (styleMarker 0) ("<style>".data ++ C ++ "</style>".data)
        ((A1 ++ (val ++ A2)) ++ (styleMarker 0 ++ B)) =
      (A1 ++ (val ++ A2)) ++ ("<style>".data ++ (C ++ ("</style>".data ++ B)))
    rw [hrepl]
    exact hO_shape
  refine ⟨hmain, ?_, hreg_t⟩
  rw [hmain]
  unfold styleRegions
  rw [extractStyle_single (A1 ++ (val ++ A2)) C B _ 0 hA2 hC hB (Nat.le_refl _)]

theorem claim_C1_witness :
    smart_format_template [("greeting".data, "Bonjour Ali,".data)]
        (("<p>".data ++ ('\x7b' :: ("greeting".data ++ ('\x7d' :: "</p>".data)))) ++
          ("<style>".data ++ (" .x\x7bcolor:red;\x7d ".data ++
            ("</style>".data ++ "<div>ok</div>".data)))) =
      ("<p>".data ++ ("Bonjour Ali,".data ++ "</p>".data)) ++
        ("<style>".data ++ (" .x\x7bcolor:red;\x7d ".data ++
          ("</style>".data ++ "<div>ok</div>".data))) ∧
    styleRegions (smart_format_template [("greeting".data, "Bonjour Ali,".data)]
        (("<p>".data ++ ('\x7b' :: ("greeting".data ++ ('\x7d' :: "</p>".data)))) ++
          ("<style>".data ++ (" .x\x7bcolor:red;\x7d ".data ++
            ("</style>".data ++ "<div>ok</div>".data))))) =
      ["<style>".data ++ " .x\x7bcolor:red;\x7d ".data ++ "</style>".data] := by
  have h := claim_C1 "<p>".data "greeting".data "</p>".data
    " .x\x7bcolor:red;\x7d ".data "<div>ok</div>".data "Bonjour Ali,".data
    [("greeting".data, "Bonjour Ali,".data)]
    (by decide) (by decide) (by decide) (by decide) (by decide)
    (by decide) (by decide) (by decide) (by decide) (by decide)
    (by decide) (by decide) (by decide) (by decide) (by decide)
  exact ⟨h.1, h.2.1⟩
